import Mathlib

/-!
Verification of the `rust-symm` core (`src/core/model.rs`, `src/core/alg.rs`,
`src/core/util.rs`) against its specification.

Modelling conventions:

* `f64` values are modelled as exact rationals (`ℚ`).  The source manipulates
  only finite doubles (`Point::new` rejects non-finite coordinates), and every
  comparison in the source goes through the tolerance helpers of `util.rs`,
  which we translate verbatim over `ℚ`.  Finiteness guards (`is_finite`) are
  vacuously true in this model.
* The repository's `core/config.rs` (module `config`, defining the tolerance
  constant `EPSILON`) is not under `src/`; the tolerance is therefore threaded
  through every definition as an explicit parameter `eps`, and a concrete
  constant `EPSILON`, modelled from the spec, instantiates it for concrete
  runs (see the doc comment on `EPSILON`).
* Rust `bool`-valued comparisons are modelled as decidable propositions.
* `panic!` (in `Line::get_reflected_point`) is modelled by `Option.none`.
* `HashSet`/`HashMap` are modelled as lists carrying one fixed enumeration
  order (the source's iteration order over a hash container is fixed for the
  duration of one call but otherwise unspecified; the list order plays that
  role).  Membership and lookup are modelled by their documented `Eq`-based
  semantics: an element is contained iff some stored element compares equal
  (here: tolerance-equal).  The fact that `Point`'s raw-bit `Hash` breaks
  this contract is treated separately (claim C3).
* `HashMap::insert` replaces the value at an equal key; the algorithm never
  reads the values of `point_reflections` (only key presence), so the update
  is modelled by rewriting the value at every tolerance-equal key.
-/

/-- Models `util::floats_equal_toler`: absolute difference strictly below the
tolerance. -/
def floats_equal_toler (eps a b : ℚ) : Prop := |a - b| < eps

instance (eps a b : ℚ) : Decidable (floats_equal_toler eps a b) := by
  unfold floats_equal_toler; infer_instance

/-- Models `util::float_partial_cmp_tolerance` ("float cmp with tolerance"):
three-way comparison that reports equality whenever the difference is within
tolerance.  The source first checks `a.is_finite() && b.is_finite()` and
returns `None` otherwise; over exact rationals every value is finite, so the
`None` branch is unreachable and the result is always `some`. -/
def float_cmp_toler (eps a b : ℚ) : Option Ordering :=
  if |a - b| < eps then some Ordering.eq
  else if a < b then some Ordering.lt
  else some Ordering.gt

/-- Models `model::Point`: a point in 2D space (coordinates exact rationals;
the `Point::new` finiteness check of the source is vacuous here). -/
structure Point where
  x : ℚ
  y : ℚ
deriving DecidableEq

/-- Models `impl PartialEq for Point`: both coordinate differences within
tolerance. -/
def pointEq (eps : ℚ) (p q : Point) : Prop :=
  floats_equal_toler eps p.x q.x ∧ floats_equal_toler eps p.y q.y

instance (eps : ℚ) (p q : Point) : Decidable (pointEq eps p q) := by
  unfold pointEq; infer_instance

/-- Models `impl PartialOrd for Point` (its `partial cmp` method): compare `x`
with tolerance; on a tie (`Some(Equal)`) fall through to `y`, otherwise
return the `x` comparison unchanged. -/
def pointCmp (eps : ℚ) (p q : Point) : Option Ordering :=
  if float_cmp_toler eps p.x q.x = some Ordering.eq then float_cmp_toler eps p.y q.y
  else float_cmp_toler eps p.x q.x

/-- Models the Rust `p1 <= p2` on `Point`, i.e.
`matches!(partial cmp, Some(Less | Equal))`. -/
def pointLe (eps : ℚ) (p q : Point) : Prop :=
  pointCmp eps p q = some Ordering.lt ∨ pointCmp eps p q = some Ordering.eq

instance (eps : ℚ) (p q : Point) : Decidable (pointLe eps p q) := by
  unfold pointLe; infer_instance

/-- Models `impl Hash for Point`: the source hashes `self.x.to_bits()` and
`self.y.to_bits()`.  `f64::to_bits` is injective on the finite doubles the
program constructs, so the value fed to the hasher is determined by, and
determines, the raw coordinate pair; we model that hashed value by the raw
coordinate pair itself. -/
def Point.hashKey (p : Point) : ℚ × ℚ := (p.x, p.y)

/-- Models `model::Line`: the line `a*x + b*y + c = 0`. -/
structure Line where
  a : ℚ
  b : ℚ
  c : ℚ
deriving DecidableEq

/-- Models `Line::get_reflected_point`: reflection of `p` across the line by
the standard implicit-line formula.  The source's
`panic!("Invalid line: ...")` on `a^2 + b^2 == 0.0` (an exact, not
tolerance-based, test) is modelled by `none`. -/
def Line.get_reflected_point (l : Line) (p : Point) : Option Point :=
  if l.a ^ 2 + l.b ^ 2 = 0 then none
  else
    let factor := 2 * (l.a * p.x + l.b * p.y + l.c) / (l.a ^ 2 + l.b ^ 2)
    some ⟨p.x - factor * l.a, p.y - factor * l.b⟩

/-- Models `Line::is_point_on_line`: `a*x + b*y + c` within tolerance of 0. -/
def Line.is_point_on_line (eps : ℚ) (l : Line) (p : Point) : Prop :=
  floats_equal_toler eps (l.a * p.x + l.b * p.y + l.c) 0

instance (eps : ℚ) (l : Line) (p : Point) : Decidable (l.is_point_on_line eps p) := by
  unfold Line.is_point_on_line; infer_instance

/-- Models `impl PartialEq for Line`: the three raw coefficients compare
`Some(Equal)` under the tolerance three-way comparison. -/
def lineEq (eps : ℚ) (l1 l2 : Line) : Prop :=
  float_cmp_toler eps l1.a l2.a = some Ordering.eq ∧
  float_cmp_toler eps l1.b l2.b = some Ordering.eq ∧
  float_cmp_toler eps l1.c l2.c = some Ordering.eq

instance (eps : ℚ) (l1 l2 : Line) : Decidable (lineEq eps l1 l2) := by
  unfold lineEq; infer_instance

/-- Models Rust `f64::round`: round half away from zero, as an integer. -/
def rust_round (x : ℚ) : ℤ :=
  if 0 ≤ x then Int.floor (x + 1/2) else -Int.floor (-x + 1/2)

/-- Models `impl Hash for Line`: each coefficient is rounded to the nearest
multiple of the tolerance (`(x / EPSILON).round() * EPSILON`) before being fed
(bitwise) to the hasher; as for `Point.hashKey` we model the hashed value by
the rounded coefficient triple. -/
def Line.hashKey (eps : ℚ) (l : Line) : ℚ × ℚ × ℚ :=
  ((rust_round (l.a / eps) : ℚ) * eps,
   (rust_round (l.b / eps) : ℚ) * eps,
   (rust_round (l.c / eps) : ℚ) * eps)

/-- Stated from the spec's words, for comparison with the source's `lineEq`
(claim C4): "two `Line` values are equal iff all three coefficients agree to
within ε *after* independent rounding" to the nearest multiple of ε. -/
def lineEqSpecRounded (eps : ℚ) (l1 l2 : Line) : Prop :=
  |(rust_round (l1.a / eps) : ℚ) * eps - (rust_round (l2.a / eps) : ℚ) * eps| < eps ∧
  |(rust_round (l1.b / eps) : ℚ) * eps - (rust_round (l2.b / eps) : ℚ) * eps| < eps ∧
  |(rust_round (l1.c / eps) : ℚ) * eps - (rust_round (l2.c / eps) : ℚ) * eps| < eps

instance (eps : ℚ) (l1 l2 : Line) : Decidable (lineEqSpecRounded eps l1 l2) := by
  unfold lineEqSpecRounded; infer_instance

/-- Models `alg::get_equidistant_line`: the perpendicular bisector of two
points, with the exact coefficient recipe of the source. -/
def get_equidistant_line (p1 p2 : Point) : Line :=
  ⟨p2.x - p1.x, p2.y - p1.y,
   1/2 * (p1.x ^ 2 + p1.y ^ 2 - p2.x ^ 2 - p2.y ^ 2)⟩

/-- Models `alg::get_through_line`: the line through two points. -/
def get_through_line (p1 p2 : Point) : Line :=
  let a := p2.y - p1.y
  let b := p1.x - p2.x
  ⟨a, b, -(a * p1.x + b * p1.y)⟩

/-- Models `model::UnorderedPointPair` (without the lifetime: points stored by
value). -/
structure UnorderedPointPair where
  p1 : Point
  p2 : Point
deriving DecidableEq

/-- Models `UnorderedPointPair::new`: store the two points in the canonical
order given by the tolerance-based `<=`. -/
def UnorderedPointPair.new (eps : ℚ) (p1 p2 : Point) : UnorderedPointPair :=
  if pointLe eps p1 p2 then ⟨p1, p2⟩ else ⟨p2, p1⟩

/-- Models the derived `PartialEq` on `UnorderedPointPair`: component-wise
`Point` equality of the (already canonicalised) fields. -/
def pairEq (eps : ℚ) (u v : UnorderedPointPair) : Prop :=
  pointEq eps u.p1 v.p1 ∧ pointEq eps u.p2 v.p2

instance (eps : ℚ) (u v : UnorderedPointPair) : Decidable (pairEq eps u v) := by
  unfold pairEq; infer_instance

/-- Models `HashSet::get` composed with the membership test on the input point
set (`points.contains(&r)` / `points.get(&r)`): the stored element that
compares tolerance-equal to the query, if any (first in enumeration order). -/
def findPt (eps : ℚ) (r : Point) : List Point → Option Point
  | [] => none
  | q :: rest => if pointEq eps q r then some q else findPt eps r rest

/-- Key-presence in the modelled `point_reflections` map
(`HashMap::get(..).is_some()` / `contains_key`). -/
def hmContains (eps : ℚ) (m : List (Point × Point)) (k : Point) : Prop :=
  ∃ kv ∈ m, pointEq eps kv.1 k

instance (eps : ℚ) (m : List (Point × Point)) (k : Point) :
    Decidable (hmContains eps m k) := by
  unfold hmContains; infer_instance

/-- Models `HashMap::insert` on `point_reflections`: replace the value at a
tolerance-equal key, else append the binding.  (The algorithm never reads the
stored values, only key presence, so which equal key is updated is
unobservable.) -/
def hmInsert (eps : ℚ) (m : List (Point × Point)) (k v : Point) : List (Point × Point) :=
  if hmContains eps m k then
    m.map (fun kv => if pointEq eps kv.1 k then (kv.1, v) else kv)
  else m ++ [(k, v)]

/-- Models `HashSet::remove` on the generator set: drop the first stored pair
comparing equal to `cov`. -/
def removePair (eps : ℚ) (cov : UnorderedPointPair) :
    List UnorderedPointPair → List UnorderedPointPair
  | [] => []
  | g :: rest => if pairEq eps g cov then rest else g :: removePair eps cov rest

/-- All unordered pairs of distinct positions of the enumeration, in the order
of the source's double loop (`i < j` over `points_vec`). -/
def upairs (eps : ℚ) : List Point → List UnorderedPointPair
  | [] => []
  | p :: rest => rest.map (fun q => UnorderedPointPair.new eps p q) ++ upairs eps rest

/-- Models the construction of `e_line_generators`: the pairs are inserted
into a `HashSet`, which drops a pair comparing equal to one already stored. -/
def buildGens (eps : ℚ) (points : List Point) : List UnorderedPointPair :=
  (upairs eps points).foldl
    (fun acc pr => if ∃ g ∈ acc, pairEq eps g pr then acc else acc ++ [pr]) []

/-- The mutable state of one candidate-validation scan: the scratch
`point_reflections` map, the remaining generator pairs, and `valid_line`. -/
structure ScanState where
  map : List (Point × Point)
  gens : List UnorderedPointPair
  valid : Bool

/-- Models the `for point in points` validation loop of `get_lines_of_sym`
for one candidate line `e_line`, iterating the remaining points `ps` in
enumeration order.  Returns `none` if `get_reflected_point` panics. -/
def scanPoints (eps : ℚ) (pts : List Point) (e_line : Line) (hde : Bool) :
    ScanState → List Point → Option ScanState
  | st, [] => some st
  | st, point :: more =>
    if hmContains eps st.map point then scanPoints eps pts e_line hde st more
    else
      match e_line.get_reflected_point point with
      | none => none
      | some reflection =>
        if pointEq eps reflection point then
          -- point is on the line, is its own reflection
          scanPoints eps pts e_line hde
            { st with
              map := if hmContains eps st.map point then st.map
                     else hmInsert eps st.map point point } more
        else
          match findPt eps reflection pts with
          | some reflection_in_input =>
            -- reflection is in the input set: record the bidirectional
            -- mapping and retire the covered pair if still present
            let covered := UnorderedPointPair.new eps point reflection_in_input
            let gens' := if ∃ g ∈ st.gens, pairEq eps g covered
                         then removePair eps covered st.gens else st.gens
            scanPoints eps pts e_line hde
              { map := hmInsert eps (hmInsert eps st.map point reflection_in_input)
                         reflection_in_input point,
                gens := gens',
                valid := st.valid } more
          | none =>
            -- reflection not in the input set: the candidate is invalid;
            -- keep scanning only under the high-degree policy
            if hde then scanPoints eps pts e_line hde { st with valid := false } more
            else some { st with valid := false }

/-- Models the `while let Some(e_pair) = e_line_generators.iter().next()` loop
of `get_lines_of_sym`.  The head of `gens` is the pair the unspecified
iteration order yields next; it is removed before the scan.  `fuel` bounds the
number of iterations (each iteration removes the head, so the initial
generator count suffices; the `fuel = 0` case with pairs left is
unreachable). -/
def symLoop (eps : ℚ) (pts : List Point) (hde : Bool) :
    Nat → List UnorderedPointPair → List Line → Bool → Option (List Line × Bool)
  | _, [], lines, tlp => some (lines, tlp)
  | 0, _ :: _, _, _ => none
  | fuel + 1, e_pair :: rest, lines, tlp =>
    let e_line := get_equidistant_line e_pair.p1 e_pair.p2
    let st0 : ScanState :=
      { map := hmInsert eps (hmInsert eps [] e_pair.p1 e_pair.p2) e_pair.p2 e_pair.p1,
        gens := rest, valid := true }
    match scanPoints eps pts e_line hde st0 pts with
    | none => none
    | some st =>
      let tlp' := if st.valid then false else tlp
      let lines' :=
        if st.valid then
          if ∃ l ∈ lines, lineEq eps l e_line then lines else lines ++ [e_line]
        else lines
      symLoop eps pts hde fuel st.gens lines' tlp'

/-- Models `alg::get_lines_of_sym`.  The input `HashSet<Point>` is modelled by
the list `points` in its (fixed but arbitrary) enumeration order, the result
`HashSet<Line>` by the list of inserted lines.  `none` models a `panic!`
escaping the call. -/
def get_lines_of_sym (eps : ℚ) (points : List Point)
    (high_degree_expected : Option Bool) : Option (List Line) :=
  let hde := high_degree_expected.getD true
  if points.length < 2 then some []
  else
    let gens0 := buildGens eps points
    match symLoop eps points hde gens0.length gens0 [] true with
    | none => none
    | some (lines, tlp) =>
      if tlp then
        -- only possible missing line of symmetry: a line through all points
        match points with
        | plist1 :: plist2 :: restPts =>
          let through_line := get_through_line plist1 plist2
          if (∀ p ∈ restPts, through_line.is_point_on_line eps p) ∧
             ¬ ∃ l ∈ lines, lineEq eps l through_line then
            some (lines ++ [through_line])
          else some lines
        | _ => some lines -- the source's `points_vec.len() >= 2` guard;
                          -- unreachable: the early return covers `length < 2`
      else some lines

/-- Models the `eprintln!` warning branch of `get_lines_of_sym`: a non-fatal
diagnostic is emitted exactly when fewer than two points are supplied. -/
def emitsWarning (points : List Point) : Prop := points.length < 2

instance (points : List Point) : Decidable (emitsWarning points) := by
  unfold emitsWarning; infer_instance

/-- Modelled from the spec: the repository's `core/config.rs` (declared as
`pub mod config` in `src/lib.rs` and defining the tolerance constant
`config::EPSILON`) is not under `src/`.  The spec fixes only "a fixed small
positive constant ε"; we instantiate the modelled constant to the concrete
small positive rational `1/1000` for concrete runs, and keep every general
theorem parametric in the tolerance. -/
def EPSILON : ℚ := 1/1000

/-- The reflection formula as a total function, for stating algebraic facts
about the `some` branch of `Line.get_reflected_point`. -/
def reflPt (l : Line) (p : Point) : Point :=
  ⟨p.x - 2 * (l.a * p.x + l.b * p.y + l.c) / (l.a ^ 2 + l.b ^ 2) * l.a,
   p.y - 2 * (l.a * p.x + l.b * p.y + l.c) / (l.a ^ 2 + l.b ^ 2) * l.b⟩

/-- Squared Euclidean distance between two points (used to state the
perpendicular-bisector property; two nonnegative distances are equal iff
their squares are). -/
def sqDist (p q : Point) : ℚ := (p.x - q.x) ^ 2 + (p.y - q.y) ^ 2

/-- The per-point soundness property at doubled tolerance: the reflection of
`p` across `l` succeeds and lands within `2*eps` (per coordinate) of some
input point. -/
def GoodKey (eps : ℚ) (pts : List Point) (l : Line) (p : Point) : Prop :=
  ∃ r, l.get_reflected_point p = some r ∧ ∃ q ∈ pts, pointEq (2 * eps) r q

/-! ## General helper lemmas -/

/-- The tolerance three-way comparison reports equality exactly on differences
within tolerance. -/
theorem float_cmp_toler_eq_iff (eps a b : ℚ) :
    float_cmp_toler eps a b = some Ordering.eq ↔ |a - b| < eps := by
  unfold float_cmp_toler
  split_ifs <;> simp_all

/-- Arithmetic characterisation of the tolerance-based `<=` on points. -/
theorem pointLe_iff (eps : ℚ) (p q : Point) :
    pointLe eps p q ↔
      (|p.x - q.x| < eps ∧ (|p.y - q.y| < eps ∨ p.y < q.y)) ∨
      (¬ |p.x - q.x| < eps ∧ p.x < q.x) := by
  unfold pointLe pointCmp float_cmp_toler
  split_ifs <;> simp_all

/-- Arithmetic characterisation of the source's `Line` equality: each raw
coefficient pair within tolerance, with no rounding involved. -/
theorem lineEq_iff (eps : ℚ) (l1 l2 : Line) :
    lineEq eps l1 l2 ↔
      |l1.a - l2.a| < eps ∧ |l1.b - l2.b| < eps ∧ |l1.c - l2.c| < eps := by
  unfold lineEq
  rw [float_cmp_toler_eq_iff, float_cmp_toler_eq_iff, float_cmp_toler_eq_iff]

/-- On a non-degenerate line, `get_reflected_point` succeeds and returns the
reflection formula `reflPt`. -/
theorem get_reflected_point_eq_some (l : Line) (p : Point) (h : l.a ^ 2 + l.b ^ 2 ≠ 0) :
    l.get_reflected_point p = some (reflPt l p) := by
  unfold Line.get_reflected_point reflPt
  rw [if_neg h]

/-- Reflecting twice across a non-degenerate line is the identity (exact
rational arithmetic). -/
theorem reflPt_involution (l : Line) (p : Point) (h : l.a ^ 2 + l.b ^ 2 ≠ 0) :
    reflPt l (reflPt l p) = p := by
  unfold reflPt
  have hx : ∀ u v : ℚ, Point.mk u v = p ↔ u = p.x ∧ v = p.y := by
    intro u v
    cases p
    simp [Point.mk.injEq]
  rw [hx]
  constructor <;> · field_simp; ring

/-- The perpendicular bisector of `(p1, p2)` reflects `p1` exactly onto `p2`. -/
theorem reflPt_equidistant_fst (p1 p2 : Point)
    (h : (get_equidistant_line p1 p2).a ^ 2 + (get_equidistant_line p1 p2).b ^ 2 ≠ 0) :
    reflPt (get_equidistant_line p1 p2) p1 = p2 := by
  unfold reflPt get_equidistant_line at *
  have hx : ∀ u v : ℚ, Point.mk u v = p2 ↔ u = p2.x ∧ v = p2.y := by
    intro u v
    cases p2
    simp [Point.mk.injEq]
  rw [hx]
  simp only at h ⊢
  constructor <;> · field_simp; ring

/-- The perpendicular bisector of `(p1, p2)` reflects `p2` exactly onto `p1`. -/
theorem reflPt_equidistant_snd (p1 p2 : Point)
    (h : (get_equidistant_line p1 p2).a ^ 2 + (get_equidistant_line p1 p2).b ^ 2 ≠ 0) :
    reflPt (get_equidistant_line p1 p2) p2 = p1 := by
  unfold reflPt get_equidistant_line at *
  have hx : ∀ u v : ℚ, Point.mk u v = p1 ↔ u = p1.x ∧ v = p1.y := by
    intro u v
    cases p1
    simp [Point.mk.injEq]
  rw [hx]
  simp only at h ⊢
  constructor <;> · field_simp; ring

/-- The equidistant line of two points that are not tolerance-equal is
non-degenerate. -/
theorem equidistant_nondegenerate (eps : ℚ) (p1 p2 : Point) (heps : 0 < eps)
    (h : ¬ pointEq eps p1 p2) :
    (get_equidistant_line p1 p2).a ^ 2 + (get_equidistant_line p1 p2).b ^ 2 ≠ 0 := by
  unfold get_equidistant_line
  simp only
  intro hzero
  apply h
  have ha : p2.x - p1.x = 0 := by nlinarith [sq_nonneg (p2.x - p1.x), sq_nonneg (p2.y - p1.y)]
  have hb : p2.y - p1.y = 0 := by nlinarith [sq_nonneg (p2.x - p1.x), sq_nonneg (p2.y - p1.y)]
  constructor <;> unfold floats_equal_toler
  · rw [show p1.x - p2.x = -(p2.x - p1.x) by ring, ha]
    simpa using heps
  · rw [show p1.y - p2.y = -(p2.y - p1.y) by ring, hb]
    simpa using heps

/-! ## Claim C4: Line equality -/

/-- Claim C4, amended.  The claim asserted that two `Line` values are equal
iff all six coefficients, after independent rounding to the nearest multiple
of ε, agree to within ε.  In the source (`impl PartialEq for Line`) no
rounding happens on comparison: two lines are equal iff each pair of *raw*
coefficients differs by strictly less than ε; the ε-rounding is applied only
inside `impl Hash for Line`.  This theorem proves the amended
characterisation for every tolerance and every pair of lines. -/
theorem C4_line_equality_is_raw_tolerance (eps : ℚ) (l1 l2 : Line) :
    lineEq eps l1 l2 ↔
      |l1.a - l2.a| < eps ∧ |l1.b - l2.b| < eps ∧ |l1.c - l2.c| < eps :=
  lineEq_iff eps l1 l2

/-- Claim C4, counterexample to the claim as stated: with the lines
`(1/2500, 0, 0)` and `(13/10000, 0, 0)` the raw first coefficients differ by
`9/10000 < EPSILON`, so the source's equality holds, but after rounding to
the nearest multiple of `EPSILON` they become `0` and `EPSILON`, which do not
agree to within `EPSILON`; the claimed equivalence is false at this input. -/
theorem C4_counterexample :
    lineEq EPSILON ⟨1/2500, 0, 0⟩ ⟨13/10000, 0, 0⟩ ∧
    ¬ lineEqSpecRounded EPSILON ⟨1/2500, 0, 0⟩ ⟨13/10000, 0, 0⟩ := by
  constructor
  · rw [lineEq_iff]
    norm_num [EPSILON, abs_lt]
  · unfold lineEqSpecRounded
    norm_num [rust_round, EPSILON, abs_lt]

/-- Claim C4, instance witness of the amended theorem at a concrete input. -/
theorem C4_witness :
    lineEq EPSILON ⟨1, 2, 3⟩ ⟨1, 2, 3⟩ ↔
      |(1:ℚ) - 1| < EPSILON ∧ |(2:ℚ) - 2| < EPSILON ∧ |(3:ℚ) - 3| < EPSILON :=
  C4_line_equality_is_raw_tolerance EPSILON ⟨1, 2, 3⟩ ⟨1, 2, 3⟩

/-! ## Claim C5: insufficient input -/

/-- Claim C5: for every input with fewer than two points and any policy flag,
`get_lines_of_sym` returns the empty set, emits the warning diagnostic, and
does not fail (the result is `some`, not the `none` that models a panic). -/
theorem C5_insufficient_input (eps : ℚ) (points : List Point)
    (flag : Option Bool) (h : points.length < 2) :
    get_lines_of_sym eps points flag = some [] ∧ emitsWarning points := by
  refine ⟨?_, h⟩
  unfold get_lines_of_sym
  rw [if_pos h]

/-- Claim C5, witness at the one-point input of spec Scenario A. -/
theorem C5_witness :
    get_lines_of_sym EPSILON [⟨0, 0⟩] none = some [] ∧ emitsWarning [⟨0, 0⟩] :=
  C5_insufficient_input EPSILON [⟨0, 0⟩] none (by simp)

/-! ## Claim C7: the equidistant line -/

/-- Claim C7: for distinct points, `get_equidistant_line` returns exactly the
coefficients `(x2 - x1, y2 - y1, (x1² + y1² - x2² - y2²)/2)`, and in exact
arithmetic the resulting line is the perpendicular bisector: a point
satisfies the line equation iff its squared distances to the two generators
agree (squared distances are equal iff distances are). -/
theorem C7_equidistant_line_is_perpendicular_bisector (p1 p2 : Point)
    (hne : p1 ≠ p2) :
    get_equidistant_line p1 p2 =
      ⟨p2.x - p1.x, p2.y - p1.y, 1/2 * (p1.x ^ 2 + p1.y ^ 2 - p2.x ^ 2 - p2.y ^ 2)⟩ ∧
    ∀ q : Point,
      ((get_equidistant_line p1 p2).a * q.x + (get_equidistant_line p1 p2).b * q.y +
          (get_equidistant_line p1 p2).c = 0 ↔
        sqDist q p1 = sqDist q p2) := by
  refine ⟨rfl, fun q => ?_⟩
  have key : sqDist q p1 - sqDist q p2 =
      2 * ((get_equidistant_line p1 p2).a * q.x + (get_equidistant_line p1 p2).b * q.y +
        (get_equidistant_line p1 p2).c) := by
    unfold sqDist get_equidistant_line
    ring
  constructor <;> intro h <;> linarith [key]

/-- Claim C7, witness at `p1 = (0,0)`, `p2 = (2,0)`, specialised to the probe
point `q = (1,5)` (which lies on the bisector `x = 1`). -/
theorem C7_witness :
    get_equidistant_line ⟨0, 0⟩ ⟨2, 0⟩ =
      ⟨2 - 0, 0 - 0, 1/2 * (0 ^ 2 + 0 ^ 2 - 2 ^ 2 - 0 ^ 2)⟩ ∧
    ((get_equidistant_line ⟨0, 0⟩ ⟨2, 0⟩).a * 1 + (get_equidistant_line ⟨0, 0⟩ ⟨2, 0⟩).b * 5 +
        (get_equidistant_line ⟨0, 0⟩ ⟨2, 0⟩).c = 0 ↔
      sqDist ⟨1, 5⟩ ⟨0, 0⟩ = sqDist ⟨1, 5⟩ ⟨2, 0⟩) :=
  have h := C7_equidistant_line_is_perpendicular_bisector ⟨0, 0⟩ ⟨2, 0⟩ (by simp)
  ⟨h.1, h.2 ⟨1, 5⟩⟩

/-! ## Claim C8: reflection failure -/

/-- Claim C8: `get_reflected_point` fails exactly on degenerate lines
(`a² + b² = 0`), and on every non-degenerate line it returns the standard
implicit-line mirror image.  In this exact-rational model the returned
coordinates are always finite rationals, so no non-finite value can be
produced silently; the only failure is the explicit degenerate-line panic. -/
theorem C8_reflection_fails_iff_degenerate (l : Line) (p : Point) :
    (l.get_reflected_point p = none ↔ l.a ^ 2 + l.b ^ 2 = 0) ∧
    (l.a ^ 2 + l.b ^ 2 ≠ 0 →
      l.get_reflected_point p =
        some ⟨p.x - 2 * (l.a * p.x + l.b * p.y + l.c) / (l.a ^ 2 + l.b ^ 2) * l.a,
              p.y - 2 * (l.a * p.x + l.b * p.y + l.c) / (l.a ^ 2 + l.b ^ 2) * l.b⟩) := by
  constructor
  · unfold Line.get_reflected_point
    split_ifs with h <;> simp [h]
  · intro h
    unfold Line.get_reflected_point
    rw [if_neg h]

/-- Claim C8, witness at the line `x + 2y = 0` and point `(2,1)`. -/
theorem C8_witness :
    (Line.get_reflected_point ⟨1, 2, 0⟩ ⟨2, 1⟩ = none ↔ (1:ℚ) ^ 2 + 2 ^ 2 = 0) ∧
    ((1:ℚ) ^ 2 + 2 ^ 2 ≠ 0 →
      Line.get_reflected_point ⟨1, 2, 0⟩ ⟨2, 1⟩ =
        some ⟨2 - 2 * (1 * 2 + 2 * 1 + 0) / (1 ^ 2 + 2 ^ 2) * 1,
              1 - 2 * (1 * 2 + 2 * 1 + 0) / (1 ^ 2 + 2 ^ 2) * 2⟩) :=
  C8_reflection_fails_iff_degenerate ⟨1, 2, 0⟩ ⟨2, 1⟩

/-! ## Claim C10: reflection is an involution -/

/-- Claim C10: across every non-degenerate line, reflecting twice returns the
original point exactly (in exact arithmetic), and in particular the double
reflection is tolerance-equal to the original point under the source's
`Point` equality, for every positive tolerance. -/
theorem C10_reflection_involution (eps : ℚ) (l : Line) (p : Point)
    (heps : 0 < eps) (h : l.a ^ 2 + l.b ^ 2 ≠ 0) :
    (l.get_reflected_point p).bind l.get_reflected_point = some p ∧
    pointEq eps (((l.get_reflected_point p).bind l.get_reflected_point).getD p) p := by
  have h1 : (l.get_reflected_point p).bind l.get_reflected_point = some p := by
    rw [get_reflected_point_eq_some l p h, Option.some_bind,
      get_reflected_point_eq_some l (reflPt l p) h, reflPt_involution l p h]
  refine ⟨h1, ?_⟩
  rw [h1]
  unfold pointEq floats_equal_toler
  simp only [Option.getD_some, sub_self, abs_zero]
  exact ⟨heps, heps⟩

/-- Claim C10, witness at the line `x + 2y = 0`, point `(2,1)`, tolerance
`EPSILON`. -/
theorem C10_witness :
    (Line.get_reflected_point ⟨1, 2, 0⟩ ⟨2, 1⟩).bind (Line.get_reflected_point ⟨1, 2, 0⟩) =
      some ⟨2, 1⟩ ∧
    pointEq EPSILON
      (((Line.get_reflected_point ⟨1, 2, 0⟩ ⟨2, 1⟩).bind
          (Line.get_reflected_point ⟨1, 2, 0⟩)).getD ⟨2, 1⟩) ⟨2, 1⟩ :=
  C10_reflection_involution EPSILON ⟨1, 2, 0⟩ ⟨2, 1⟩ (by norm_num [EPSILON]) (by norm_num)

/-! ## Claim C6: spec Scenario D -/

set_option maxHeartbeats 2000000 in
/-- Claim C6: on the input `{(0,0), (1,0), (2,0)}`, under every value of the
policy flag (including the defaulted `none`), the solver returns exactly the
perpendicular bisector `x = 1` produced by `get_equidistant_line ((0,0),(2,0))`
with coefficients `(2, 0, -2)`; that line is `lineEq`-equal to the returned
line, reflects `(1,0)` to itself and exchanges `(0,0)` and `(2,0)`. -/
theorem C6_three_collinear_points_bisector (flag : Option Bool) :
    get_lines_of_sym EPSILON [⟨0, 0⟩, ⟨1, 0⟩, ⟨2, 0⟩] flag = some [⟨2, 0, -2⟩] ∧
    get_equidistant_line ⟨0, 0⟩ ⟨2, 0⟩ = ⟨2, 0, -2⟩ ∧
    lineEq EPSILON ⟨2, 0, -2⟩ (get_equidistant_line ⟨0, 0⟩ ⟨2, 0⟩) ∧
    Line.get_reflected_point ⟨2, 0, -2⟩ ⟨1, 0⟩ = some ⟨1, 0⟩ ∧
    Line.get_reflected_point ⟨2, 0, -2⟩ ⟨0, 0⟩ = some ⟨2, 0⟩ ∧
    Line.get_reflected_point ⟨2, 0, -2⟩ ⟨2, 0⟩ = some ⟨0, 0⟩ := by
  refine ⟨?_, by norm_num [get_equidistant_line], by rw [lineEq_iff]; norm_num [get_equidistant_line, EPSILON],
    by norm_num [Line.get_reflected_point], by norm_num [Line.get_reflected_point],
    by norm_num [Line.get_reflected_point]⟩
  rcases flag with _ | _ | _ <;>
  · norm_num [get_lines_of_sym, buildGens, upairs, UnorderedPointPair.new, pointLe_iff,
      pairEq, pointEq, floats_equal_toler, symLoop, scanPoints,
      get_equidistant_line, Line.get_reflected_point, hmContains, hmInsert, findPt,
      removePair, lineEq_iff, get_through_line, Line.is_point_on_line, EPSILON, abs_lt]

/-! ## Claim C2: order independence -/

set_option maxHeartbeats 4000000 in
/-- Claim C2 fails on the code: the two input enumerations
`[(-1,0), (1,0), (-2,0), (2,0)]` and `[(-2,0), (2,0), (-1,0), (1,0)]` are
permutations of each other (the same point set), yet with the same policy
flag the first consumption order returns exactly the line `(2,0,0)` (the
bisector generated by the pair `{(-1,0),(1,0)}`, which then retires the pair
`{(-2,0),(2,0)}`), while the second returns exactly `(4,0,0)` (the same
geometric line `x = 0` generated by the farther pair, retiring the nearer
one), and those two `Line` values are not equal under the source's `Line`
equality.  The returned sets of lines therefore depend on the consumption
order. -/
theorem C2_result_depends_on_order :
    ([⟨-1, 0⟩, ⟨1, 0⟩, ⟨-2, 0⟩, ⟨2, 0⟩] : List Point).Perm
      [⟨-2, 0⟩, ⟨2, 0⟩, ⟨-1, 0⟩, ⟨1, 0⟩] ∧
    get_lines_of_sym EPSILON [⟨-1, 0⟩, ⟨1, 0⟩, ⟨-2, 0⟩, ⟨2, 0⟩] (some true) =
      some [⟨2, 0, 0⟩] ∧
    get_lines_of_sym EPSILON [⟨-2, 0⟩, ⟨2, 0⟩, ⟨-1, 0⟩, ⟨1, 0⟩] (some true) =
      some [⟨4, 0, 0⟩] ∧
    ¬ lineEq EPSILON ⟨2, 0, 0⟩ ⟨4, 0, 0⟩ := by
  have hperm : (([⟨-1, 0⟩, ⟨1, 0⟩] ++ [⟨-2, 0⟩, ⟨2, 0⟩]) : List Point).Perm
      ([⟨-2, 0⟩, ⟨2, 0⟩] ++ [⟨-1, 0⟩, ⟨1, 0⟩]) := List.perm_append_comm
  refine ⟨hperm, ?_, ?_, by rw [lineEq_iff]; norm_num [EPSILON, abs_lt]⟩ <;>
  · norm_num [get_lines_of_sym, buildGens, upairs, UnorderedPointPair.new, pointLe_iff,
      pairEq, pointEq, floats_equal_toler, symLoop, scanPoints,
      get_equidistant_line, Line.get_reflected_point, hmContains, hmInsert, findPt,
      removePair, lineEq_iff, get_through_line, Line.is_point_on_line, EPSILON, abs_lt]

/-! ## Claim C3: Point hash versus tolerance equality -/

/-- Claim C3 fails on the code (the claim is the documented contract, the
code breaks it): the points `(0,0)` and `(EPSILON/2, 0)` are tolerance-equal
under `impl PartialEq for Point`, yet `impl Hash for Point` feeds the raw bit
patterns of the coordinates (modelled by the raw coordinate pair, since
`f64::to_bits` is injective) to the hasher, and those differ, so the two
points hash to different values; the hash is derived from the raw bit
pattern, not from a value constant across the ε-band. -/
theorem C3_point_hash_breaks_tolerance_band :
    pointEq EPSILON ⟨0, 0⟩ ⟨1/2000, 0⟩ ∧
    Point.hashKey ⟨0, 0⟩ ≠ Point.hashKey ⟨1/2000, 0⟩ := by
  constructor
  · unfold pointEq floats_equal_toler
    norm_num [EPSILON, abs_lt]
  · unfold Point.hashKey
    simp only [ne_eq, Prod.mk.injEq, not_and]
    intro h
    exact absurd h (by norm_num)

/-! ## Claim C1: soundness of the result set -/

set_option maxHeartbeats 4000000 in
/-- Claim C1, counterexample to the claim as stated: on the pairwise
tolerance-distinct input `{(-1/2,-1), (1/2,1), (2,1), (0.3991,-2.1991)}` the
solver returns the line `(1,2,0)` (the bisector of the first pair; while
validating it, the reflection `(0.4,-2.2)` of `(2,1)` is matched with
tolerance slack to the input point `q = (0.3991,-2.1991)`).  But `q` itself
does not lie on that line, and the exact reflection of `q` across it,
`(1.99874, 1.00018)`, is not tolerance-equal to any input point (it misses
`(2,1)` by `0.00126 > EPSILON` in `x`): the returned line violates the
claimed per-point soundness disjunction at `q`. -/
theorem C1_counterexample :
    get_lines_of_sym EPSILON
        [⟨-1/2, -1⟩, ⟨1/2, 1⟩, ⟨2, 1⟩, ⟨3991/10000, -21991/10000⟩] (some true) =
      some [⟨1, 2, 0⟩] ∧
    (⟨3991/10000, -21991/10000⟩ : Point) ∈
      ([⟨-1/2, -1⟩, ⟨1/2, 1⟩, ⟨2, 1⟩, ⟨3991/10000, -21991/10000⟩] : List Point) ∧
    ¬ Line.is_point_on_line EPSILON ⟨1, 2, 0⟩ ⟨3991/10000, -21991/10000⟩ ∧
    Line.get_reflected_point ⟨1, 2, 0⟩ ⟨3991/10000, -21991/10000⟩ =
      some ⟨99937/50000, 50009/50000⟩ ∧
    ¬ pointEq EPSILON ⟨99937/50000, 50009/50000⟩ ⟨-1/2, -1⟩ ∧
    ¬ pointEq EPSILON ⟨99937/50000, 50009/50000⟩ ⟨1/2, 1⟩ ∧
    ¬ pointEq EPSILON ⟨99937/50000, 50009/50000⟩ ⟨2, 1⟩ ∧
    ¬ pointEq EPSILON ⟨99937/50000, 50009/50000⟩ ⟨3991/10000, -21991/10000⟩ := by
  refine ⟨?_, by simp, by norm_num [Line.is_point_on_line, floats_equal_toler, EPSILON, abs_lt],
    by norm_num [Line.get_reflected_point],
    by norm_num [pointEq, floats_equal_toler, EPSILON, abs_lt],
    by norm_num [pointEq, floats_equal_toler, EPSILON, abs_lt],
    by norm_num [pointEq, floats_equal_toler, EPSILON, abs_lt],
    by norm_num [pointEq, floats_equal_toler, EPSILON, abs_lt]⟩
  norm_num [get_lines_of_sym, buildGens, upairs, UnorderedPointPair.new, pointLe_iff,
    pairEq, pointEq, floats_equal_toler, symLoop, scanPoints,
    get_equidistant_line, Line.get_reflected_point, hmContains, hmInsert, findPt,
    removePair, lineEq_iff, get_through_line, Line.is_point_on_line, EPSILON, abs_lt]


/-- Tolerance equality is reflexive for positive tolerance. -/
theorem pointEq_refl (eps : ℚ) (p : Point) (heps : 0 < eps) : pointEq eps p p := by
  unfold pointEq floats_equal_toler
  simp [heps]

/-- Tolerance equality is symmetric. -/
theorem pointEq_symm (eps : ℚ) (p q : Point) (h : pointEq eps p q) : pointEq eps q p := by
  unfold pointEq floats_equal_toler at *
  rw [abs_sub_comm q.x p.x, abs_sub_comm q.y p.y]
  exact h

/-- Every pair produced by `upairs` on a pairwise tolerance-distinct list
consists of two members of the list that are not tolerance-equal. -/
theorem upairs_prop (eps : ℚ) :
    ∀ pts : List Point, pts.Pairwise (fun a b => ¬ pointEq eps a b) →
      ∀ g ∈ upairs eps pts, g.p1 ∈ pts ∧ g.p2 ∈ pts ∧ ¬ pointEq eps g.p1 g.p2
  | [], _, g, hg => by simp [upairs] at hg
  | p :: rest, hp, g, hg => by
    rw [upairs, List.mem_append] at hg
    rcases hg with hg | hg
    · obtain ⟨q, hq, rfl⟩ := List.mem_map.mp hg
      have hne : ¬ pointEq eps p q := (List.pairwise_cons.mp hp).1 q hq
      unfold UnorderedPointPair.new
      split_ifs
      · exact ⟨List.mem_cons_self p rest, List.mem_cons_of_mem p hq, hne⟩
      · exact ⟨List.mem_cons_of_mem p hq, List.mem_cons_self p rest,
          fun hc => hne (pointEq_symm eps q p hc)⟩
    · have := upairs_prop eps rest (List.pairwise_cons.mp hp).2 g hg
      exact ⟨List.mem_cons_of_mem p this.1, List.mem_cons_of_mem p this.2.1, this.2.2⟩

/-- Members of the deduplicating fold used by `buildGens` come from the
accumulator or from the folded list. -/
theorem foldl_dedup_mem (eps : ℚ) :
    ∀ (l : List UnorderedPointPair) (acc : List UnorderedPointPair),
      ∀ g ∈ l.foldl
        (fun acc pr => if ∃ g ∈ acc, pairEq eps g pr then acc else acc ++ [pr]) acc,
        g ∈ acc ∨ g ∈ l
  | [], acc, g, hg => Or.inl hg
  | pr :: l', acc, g, hg => by
    rw [List.foldl_cons] at hg
    rcases foldl_dedup_mem eps l' _ g hg with h | h
    · split_ifs at h with hc
      · exact Or.inl h
      · rcases List.mem_append.mp h with h | h
        · exact Or.inl h
        · simp only [List.mem_singleton] at h
          exact Or.inr (h ▸ List.mem_cons_self pr l')
    · exact Or.inr (List.mem_cons_of_mem pr h)

/-- Every generator pair built by `buildGens` from a pairwise
tolerance-distinct enumeration joins two distinct set members. -/
theorem buildGens_prop (eps : ℚ) (pts : List Point)
    (hp : pts.Pairwise (fun a b => ¬ pointEq eps a b)) :
    ∀ g ∈ buildGens eps pts, g.p1 ∈ pts ∧ g.p2 ∈ pts ∧ ¬ pointEq eps g.p1 g.p2 := by
  intro g hg
  rcases foldl_dedup_mem eps (upairs eps pts) [] g hg with h | h
  · simp at h
  · exact upairs_prop eps pts hp g h

/-- `removePair` only removes: every survivor was present. -/
theorem removePair_subset (eps : ℚ) (cov : UnorderedPointPair) :
    ∀ l : List UnorderedPointPair, ∀ g ∈ removePair eps cov l, g ∈ l
  | g' :: rest, g, hg => by
    rw [removePair] at hg
    split_ifs at hg
    · exact List.mem_cons_of_mem g' hg
    · rcases List.mem_cons.mp hg with h | h
      · exact h ▸ List.mem_cons_self g' rest
      · exact List.mem_cons_of_mem g' (removePair_subset eps cov rest g h)

/-- `removePair` never lengthens the list. -/
theorem removePair_length (eps : ℚ) (cov : UnorderedPointPair) :
    ∀ l : List UnorderedPointPair, (removePair eps cov l).length ≤ l.length
  | [] => by simp [removePair]
  | g' :: rest => by
    rw [removePair]
    split_ifs
    · simp
    · simpa using removePair_length eps cov rest

/-- The validation scan only ever removes generator pairs: survivors were
present, and the generator list never grows. -/
theorem scanPoints_gens (eps : ℚ) (pts : List Point) (e_line : Line) (hde : Bool) :
    ∀ (ps : List Point) (st st' : ScanState),
      scanPoints eps pts e_line hde st ps = some st' →
      (∀ g ∈ st'.gens, g ∈ st.gens) ∧ st'.gens.length ≤ st.gens.length
  | [], st, st', h => by
    rw [scanPoints, Option.some.injEq] at h
    subst h
    exact ⟨fun g hg => hg, le_rfl⟩
  | point :: more, st, st', h => by
    rw [scanPoints] at h
    split at h
    · exact scanPoints_gens eps pts e_line hde more _ st' h
    · split at h
      · exact absurd h (by simp)
      · split at h
        · have H := scanPoints_gens eps pts e_line hde more _ st' h
          exact H
        · split at h
          · have ih := scanPoints_gens eps pts e_line hde more _ st' h
            simp only at ih
            constructor
            · intro g hg
              have hg2 := ih.1 g hg
              split at hg2
              · exact removePair_subset eps _ st.gens g hg2
              · exact hg2
            · refine le_trans ih.2 ?_
              split
              · exact removePair_length eps _ st.gens
              · exact le_rfl
          · split at h
            · have H := scanPoints_gens eps pts e_line hde more _ st' h
              exact H
            · rw [Option.some.injEq] at h
              subst h
              exact ⟨fun g hg => hg, le_rfl⟩

/-- Across a non-degenerate candidate line the validation scan never panics. -/
theorem scanPoints_isSome (eps : ℚ) (pts : List Point) (e_line : Line) (hde : Bool)
    (hnd : e_line.a ^ 2 + e_line.b ^ 2 ≠ 0) :
    ∀ (ps : List Point) (st : ScanState), (scanPoints eps pts e_line hde st ps).isSome
  | [], st => by
    rw [scanPoints]
    simp
  | point :: more, st => by
    rw [scanPoints]
    split
    · exact scanPoints_isSome eps pts e_line hde hnd more st
    · split
      · next heq =>
        rw [get_reflected_point_eq_some e_line point hnd] at heq
        cases heq
      · split
        · exact scanPoints_isSome eps pts e_line hde hnd more _
        · split
          · exact scanPoints_isSome eps pts e_line hde hnd more _
          · split
            · exact scanPoints_isSome eps pts e_line hde hnd more _
            · simp

/-- With enough fuel and generator pairs of tolerance-distinct points, the
main loop never panics. -/
theorem symLoop_isSome (eps : ℚ) (pts : List Point) (hde : Bool) (heps : 0 < eps) :
    ∀ (fuel : Nat) (gens : List UnorderedPointPair) (lines : List Line) (tlp : Bool),
      gens.length ≤ fuel →
      (∀ g ∈ gens, ¬ pointEq eps g.p1 g.p2) →
      (symLoop eps pts hde fuel gens lines tlp).isSome
  | fuel, [], lines, tlp, _, _ => by
    cases fuel <;> · rw [symLoop]; simp
  | 0, g :: gens', lines, tlp, hlen, _ => by
    simp at hlen
  | fuel + 1, e_pair :: rest, lines, tlp, hlen, hgens => by
    rw [symLoop]
    have hnd := equidistant_nondegenerate eps e_pair.p1 e_pair.p2 heps
      (hgens e_pair (List.mem_cons_self e_pair rest))
    have hscan := scanPoints_isSome eps pts (get_equidistant_line e_pair.p1 e_pair.p2) hde hnd pts
      { map := hmInsert eps (hmInsert eps [] e_pair.p1 e_pair.p2) e_pair.p2 e_pair.p1,
        gens := rest, valid := true }
    obtain ⟨st, hst⟩ := Option.isSome_iff_exists.mp hscan
    rw [hst]
    have hsub := scanPoints_gens eps pts (get_equidistant_line e_pair.p1 e_pair.p2) hde pts _ st hst
    simp only at hsub
    refine symLoop_isSome eps pts hde heps fuel st.gens _ _ ?_ ?_
    · calc st.gens.length ≤ rest.length := hsub.2
        _ ≤ fuel := Nat.le_of_succ_le_succ hlen
    · intro g hg
      exact hgens g (List.mem_cons_of_mem e_pair (hsub.1 g hg))

/-- Claim C9: on every pairwise tolerance-distinct input (the invariant of
the caller's `HashSet<Point>`) with finite (here: rational) coordinates, the
solver never triggers the degenerate-reflection panic: every equidistant line
it builds joins two tolerance-distinct set elements and so has
`a^2 + b^2 != 0`, every internal `get_reflected_point` call succeeds, and the
whole call is total (`isSome`), for either policy flag. -/
theorem C9_solver_never_hits_degenerate_reflection (eps : ℚ) (pts : List Point)
    (flag : Option Bool) (heps : 0 < eps)
    (hdist : pts.Pairwise (fun a b => ¬ pointEq eps a b)) :
    (get_lines_of_sym eps pts flag).isSome := by
  rw [get_lines_of_sym]
  split
  · simp
  · have hsym := symLoop_isSome eps pts (flag.getD true) heps (buildGens eps pts).length
      (buildGens eps pts) [] true le_rfl
      (fun g hg => (buildGens_prop eps pts hdist g hg).2.2)
    obtain ⟨⟨lines, tlp⟩, heq⟩ := Option.isSome_iff_exists.mp hsym
    simp only [heq]
    split
    · split <;> (try split) <;> simp
    · simp

/-- Widening the tolerance preserves point equality. -/
theorem pointEq_mono (eps : ℚ) (p q : Point) (heps : 0 < eps) (h : pointEq eps p q) :
    pointEq (2 * eps) p q := by
  unfold pointEq floats_equal_toler at *
  constructor <;> linarith [h.1, h.2]

/-- A successful `findPt` lookup returns a stored element tolerance-equal to
the query. -/
theorem findPt_some (eps : ℚ) (r : Point) :
    ∀ (pts : List Point) (r_in : Point), findPt eps r pts = some r_in →
      r_in ∈ pts ∧ pointEq eps r_in r
  | q :: rest, r_in, h => by
    rw [findPt] at h
    split_ifs at h with hq
    · rw [Option.some.injEq] at h
      exact h ▸ ⟨List.mem_cons_self q rest, hq⟩
    · have ih := findPt_some eps r rest r_in h
      exact ⟨List.mem_cons_of_mem q ih.1, ih.2⟩

/-- Inserting preserves the presence of every key. -/
theorem hmContains_insert_mono (eps : ℚ) (m : List (Point × Point)) (k v k' : Point)
    (h : hmContains eps m k') : hmContains eps (hmInsert eps m k v) k' := by
  unfold hmInsert
  split_ifs
  · obtain ⟨kv, hkv, hEq⟩ := h
    refine ⟨if pointEq eps kv.1 k then (kv.1, v) else kv, List.mem_map.mpr ⟨kv, hkv, rfl⟩, ?_⟩
    split_ifs <;> exact hEq
  · obtain ⟨kv, hkv, hEq⟩ := h
    exact ⟨kv, List.mem_append_left _ hkv, hEq⟩

/-- The inserted key is present afterwards (positive tolerance). -/
theorem hmContains_insert_self (eps : ℚ) (m : List (Point × Point)) (k v : Point)
    (heps : 0 < eps) : hmContains eps (hmInsert eps m k v) k := by
  unfold hmInsert
  split_ifs with hc
  · obtain ⟨kv, hkv, hEq⟩ := hc
    refine ⟨if pointEq eps kv.1 k then (kv.1, v) else kv, List.mem_map.mpr ⟨kv, hkv, rfl⟩, ?_⟩
    split_ifs <;> exact hEq
  · exact ⟨(k, v), List.mem_append_right _ (List.mem_singleton.mpr rfl), pointEq_refl eps k heps⟩

/-- A key property holding for every stored key and for the inserted key
holds for every key after insertion. -/
theorem hmInsert_keys (eps : ℚ) (m : List (Point × Point)) (k v : Point)
    (P : Point → Prop) (hm : ∀ kv ∈ m, P kv.1) (hk : P k) :
    ∀ kv ∈ hmInsert eps m k v, P kv.1 := by
  unfold hmInsert
  split_ifs
  · intro kv hkv
    obtain ⟨kv0, hkv0, rfl⟩ := List.mem_map.mp hkv
    split_ifs <;> exact hm kv0 hkv0
  · intro kv hkv
    rcases List.mem_append.mp hkv with h | h
    · exact hm kv h
    · rw [List.mem_singleton.mp h]
      exact hk


/-- Auxiliary bound: a combination `(A*dx - B*dy)/d` with `|A|, |B| ≤ d` and
`|dx|, |dy| < eps` is strictly below `2*eps` in absolute value. -/
theorem reflection_combination_bound (A B d dx dy eps : ℚ) (hd : 0 < d)
    (hA : |A| ≤ d) (hB : |B| ≤ d) (hx : |dx| < eps) (hy : |dy| < eps) :
    |(A * dx - B * dy) / d| < 2 * eps := by
  have hm0 : (0:ℚ) ≤ max |dx| |dy| := le_trans (abs_nonneg dx) (le_max_left _ _)
  have hnum : |A * dx - B * dy| ≤ d * max |dx| |dy| + d * max |dx| |dy| := by
    calc |A * dx - B * dy| ≤ |A * dx| + |B * dy| := abs_sub _ _
      _ = |A| * |dx| + |B| * |dy| := by rw [abs_mul, abs_mul]
      _ ≤ d * max |dx| |dy| + d * max |dx| |dy| := by
          apply add_le_add
          · exact mul_le_mul hA (le_max_left _ _) (abs_nonneg dx) (le_of_lt hd)
          · exact mul_le_mul hB (le_max_right _ _) (abs_nonneg dy) (le_of_lt hd)
  rw [abs_div, abs_of_pos hd, div_lt_iff hd]
  have hmax : max |dx| |dy| < eps := max_lt hx hy
  calc |A * dx - B * dy| ≤ d * max |dx| |dy| + d * max |dx| |dy| := hnum
    _ < d * eps + d * eps := by
        apply add_lt_add <;> exact (mul_lt_mul_left hd).mpr hmax
    _ = 2 * eps * d := by ring

/-- Reflection across a non-degenerate line maps tolerance-equal points to
points that are equal within twice the tolerance (the linear part of the
reflection can stretch a coordinate difference by at most a factor 2 in the
max-norm). -/
theorem reflPt_tolerance_stretch (eps : ℚ) (l : Line) (u v : Point) (heps : 0 < eps)
    (hnd : l.a ^ 2 + l.b ^ 2 ≠ 0) (h : pointEq eps u v) :
    pointEq (2 * eps) (reflPt l u) (reflPt l v) := by
  obtain ⟨hx, hy⟩ := h
  unfold floats_equal_toler at hx hy
  have hd : 0 < l.a ^ 2 + l.b ^ 2 :=
    lt_of_le_of_ne (by positivity) (Ne.symm hnd)
  have ex : (reflPt l u).x - (reflPt l v).x =
      ((l.b ^ 2 - l.a ^ 2) * (u.x - v.x) - 2 * l.a * l.b * (u.y - v.y)) /
        (l.a ^ 2 + l.b ^ 2) := by
    unfold reflPt
    field_simp
    ring
  have ey : (reflPt l u).y - (reflPt l v).y =
      ((l.a ^ 2 - l.b ^ 2) * (u.y - v.y) - 2 * l.a * l.b * (u.x - v.x)) /
        (l.a ^ 2 + l.b ^ 2) := by
    unfold reflPt
    field_simp
    ring
  have hA : |l.b ^ 2 - l.a ^ 2| ≤ l.a ^ 2 + l.b ^ 2 := by
    rw [abs_le]
    constructor <;> nlinarith [sq_nonneg l.a, sq_nonneg l.b]
  have hA2 : |l.a ^ 2 - l.b ^ 2| ≤ l.a ^ 2 + l.b ^ 2 := by
    rw [abs_le]
    constructor <;> nlinarith [sq_nonneg l.a, sq_nonneg l.b]
  have hB : |2 * l.a * l.b| ≤ l.a ^ 2 + l.b ^ 2 := by
    rw [abs_le]
    constructor <;> nlinarith [sq_nonneg (l.a + l.b), sq_nonneg (l.a - l.b)]
  constructor
  · unfold floats_equal_toler
    rw [ex]
    exact reflection_combination_bound _ _ _ _ _ eps hd hA hB hx hy
  · unfold floats_equal_toler
    rw [ey]
    exact reflection_combination_bound _ _ _ _ _ eps hd hA2 hB hy hx

/-- A successful reflection is the reflection formula. -/
theorem get_reflected_point_some_eq (l : Line) (p r : Point)
    (hnd : l.a ^ 2 + l.b ^ 2 ≠ 0) (h : l.get_reflected_point p = some r) :
    r = reflPt l p := by
  rw [get_reflected_point_eq_some l p hnd, Option.some.injEq] at h
  exact h.symm

/-- Invariant of the validation scan: every key of the scratch reflection map
is an input point satisfying `GoodKey`; keys are never removed; `valid_line`
never recovers once false; and if the scan ends valid, every scanned point is
a key of the final map. -/
theorem scanPoints_invariant (eps : ℚ) (pts : List Point) (e_line : Line) (hde : Bool)
    (heps : 0 < eps) (hnd : e_line.a ^ 2 + e_line.b ^ 2 ≠ 0) :
    ∀ (ps : List Point) (st st' : ScanState),
      (∀ pt ∈ ps, pt ∈ pts) →
      (∀ kv ∈ st.map, kv.1 ∈ pts ∧ GoodKey eps pts e_line kv.1) →
      scanPoints eps pts e_line hde st ps = some st' →
      (∀ kv ∈ st'.map, kv.1 ∈ pts ∧ GoodKey eps pts e_line kv.1) ∧
      (∀ k, hmContains eps st.map k → hmContains eps st'.map k) ∧
      (st.valid = false → st'.valid = false) ∧
      (st'.valid = true → ∀ pt ∈ ps, hmContains eps st'.map pt)
  | [], st, st', _, hmap, h => by
    rw [scanPoints, Option.some.injEq] at h
    subst h
    exact ⟨hmap, fun k hk => hk, fun hv => hv, fun _ pt hpt => absurd hpt (by simp)⟩
  | point :: more, st, st', hps, hmap, h => by
    have hpt_pts : point ∈ pts := hps point (List.mem_cons_self point more)
    have hps' : ∀ pt ∈ more, pt ∈ pts := fun pt hpt => hps pt (List.mem_cons_of_mem point hpt)
    rw [scanPoints] at h
    split at h
    · -- point already a key of the map
      next hc =>
      have ih := scanPoints_invariant eps pts e_line hde heps hnd more st st' hps' hmap h
      refine ⟨ih.1, ih.2.1, ih.2.2.1, fun hv pt hpt => ?_⟩
      rcases List.mem_cons.mp hpt with rfl | hpt
      · exact ih.2.1 pt hc
      · exact ih.2.2.2 hv pt hpt
    · next hc =>
      split at h
      · exact absurd h (by simp)
      · next reflection heq =>
        have hrefl : reflection = reflPt e_line point :=
          get_reflected_point_some_eq e_line point reflection hnd heq
        split at h
        · -- reflection equals the point itself
          next hpe =>
          have hmap2 : ∀ kv ∈ hmInsert eps st.map point point,
              kv.1 ∈ pts ∧ GoodKey eps pts e_line kv.1 := by
            refine hmInsert_keys eps st.map point point
              (fun k => k ∈ pts ∧ GoodKey eps pts e_line k) hmap ?_
            exact ⟨hpt_pts, reflection, heq,
              point, hpt_pts, pointEq_mono eps reflection point heps hpe⟩
          have ih := scanPoints_invariant eps pts e_line hde heps hnd more _ st' hps'
            (by exact hmap2) h
          refine ⟨ih.1, ?_, ih.2.2.1, fun hv pt hpt => ?_⟩
          · intro k hk
            exact ih.2.1 k (hmContains_insert_mono eps st.map point point k hk)
          · rcases List.mem_cons.mp hpt with rfl | hpt
            · exact ih.2.1 pt (hmContains_insert_self eps st.map pt pt heps)
            · exact ih.2.2.2 hv pt hpt
        · next hpe =>
          split at h
          · -- reflection found in the input set
            next r_in heq2 =>
            obtain ⟨hr_mem, hr_eq⟩ := findPt_some eps reflection pts r_in heq2
            have hGpoint : GoodKey eps pts e_line point :=
              ⟨reflection, heq, r_in, hr_mem,
                pointEq_mono eps reflection r_in heps (pointEq_symm eps r_in reflection hr_eq)⟩
            have hrr : reflPt e_line reflection = point := by
              rw [hrefl]
              exact reflPt_involution e_line point hnd
            have hGr_in : GoodKey eps pts e_line r_in := by
              unfold GoodKey
              refine ⟨reflPt e_line r_in, get_reflected_point_eq_some e_line r_in hnd,
                point, hpt_pts, ?_⟩
              have h2 := reflPt_tolerance_stretch eps e_line r_in reflection heps hnd hr_eq
              rw [hrr] at h2
              exact h2
            have hmap2 : ∀ kv ∈ hmInsert eps (hmInsert eps st.map point r_in) r_in point,
                kv.1 ∈ pts ∧ GoodKey eps pts e_line kv.1 := by
              refine hmInsert_keys eps _ r_in point
                (fun k => k ∈ pts ∧ GoodKey eps pts e_line k) ?_ ⟨hr_mem, hGr_in⟩
              exact hmInsert_keys eps st.map point r_in
                (fun k => k ∈ pts ∧ GoodKey eps pts e_line k) hmap ⟨hpt_pts, hGpoint⟩
            have ih := scanPoints_invariant eps pts e_line hde heps hnd more _ st' hps'
              (by exact hmap2) h
            refine ⟨ih.1, ?_, ih.2.2.1, fun hv pt hpt => ?_⟩
            · intro k hk
              exact ih.2.1 k (hmContains_insert_mono eps _ r_in point k
                (hmContains_insert_mono eps st.map point r_in k hk))
            · rcases List.mem_cons.mp hpt with rfl | hpt
              · exact ih.2.1 pt (hmContains_insert_mono eps _ r_in pt pt
                  (hmContains_insert_self eps st.map pt r_in heps))
              · exact ih.2.2.2 hv pt hpt
          · -- reflection not in the input set: the line is invalid
            split at h
            · have ih := scanPoints_invariant eps pts e_line hde heps hnd more _ st' hps'
                (by exact hmap) h
              refine ⟨ih.1, ih.2.1, fun _ => ih.2.2.1 rfl, fun hv _ _ => ?_⟩
              exact absurd (ih.2.2.1 rfl) (by rw [hv]; simp)
            · rw [Option.some.injEq] at h
              subst h
              exact ⟨hmap, fun k hk => hk, fun _ => rfl,
                fun hv => absurd hv (by simp)⟩

/-- In a pairwise tolerance-distinct list, tolerance-equal members coincide. -/
theorem mem_pointEq_eq (eps : ℚ) (pts : List Point)
    (hdist : pts.Pairwise (fun a b => ¬ pointEq eps a b))
    (a b : Point) (ha : a ∈ pts) (hb : b ∈ pts) (hab : pointEq eps a b) : a = b := by
  by_contra hne
  have hsymm : Symmetric (fun a b : Point => ¬ pointEq eps a b) :=
    fun x y hxy hc => hxy (pointEq_symm eps y x hc)
  exact hdist.forall hsymm ha hb hne hab

/-- The seed of the scratch reflection map for a non-degenerate generating
pair: the two bindings `p1 ↦ p2` and `p2 ↦ p1`. -/
theorem seed_map_eq (eps : ℚ) (p1 p2 : Point) (hne : ¬ pointEq eps p1 p2) :
    hmInsert eps (hmInsert eps [] p1 p2) p2 p1 = [(p1, p2), (p2, p1)] := by
  have h1 : hmInsert eps [] p1 p2 = [(p1, p2)] := by
    unfold hmInsert hmContains
    simp
  rw [h1]
  unfold hmInsert hmContains
  simp [hne]

/-- Every line accumulated by the main loop satisfies the per-point
`GoodKey` soundness property for every input point. -/
theorem symLoop_lines (eps : ℚ) (pts : List Point) (hde : Bool) (heps : 0 < eps)
    (hdist : pts.Pairwise (fun a b => ¬ pointEq eps a b)) :
    ∀ (fuel : Nat) (gens : List UnorderedPointPair) (lines : List Line) (tlp : Bool)
      (linesF : List Line) (tlpF : Bool),
      (∀ g ∈ gens, g.p1 ∈ pts ∧ g.p2 ∈ pts ∧ ¬ pointEq eps g.p1 g.p2) →
      (∀ l ∈ lines, ∀ p ∈ pts, GoodKey eps pts l p) →
      symLoop eps pts hde fuel gens lines tlp = some (linesF, tlpF) →
      ∀ l ∈ linesF, ∀ p ∈ pts, GoodKey eps pts l p
  | fuel, [], lines, tlp, linesF, tlpF, _, hlines, h => by
    cases fuel <;>
    · rw [symLoop, Option.some.injEq, Prod.mk.injEq] at h
      exact h.1 ▸ hlines
  | 0, g :: gens', lines, tlp, linesF, tlpF, _, _, h => by
    rw [symLoop] at h
    exact absurd h (by simp)
  | fuel + 1, e_pair :: rest, lines, tlp, linesF, tlpF, hgens, hlines, h => by
    obtain ⟨hp1, hp2, hne⟩ := hgens e_pair (List.mem_cons_self _ _)
    have hnd := equidistant_nondegenerate eps e_pair.p1 e_pair.p2 heps hne
    rw [symLoop] at h
    split at h
    · exact absurd h (by simp)
    · next st heq =>
      have hseed : ∀ kv ∈ hmInsert eps (hmInsert eps [] e_pair.p1 e_pair.p2) e_pair.p2 e_pair.p1,
          kv.1 ∈ pts ∧ GoodKey eps pts (get_equidistant_line e_pair.p1 e_pair.p2) kv.1 := by
        rw [seed_map_eq eps e_pair.p1 e_pair.p2 hne]
        have h2eps : (0:ℚ) < 2 * eps := by linarith
        intro kv hkv
        rcases List.mem_cons.mp hkv with rfl | hkv
        · refine ⟨hp1, ?_⟩
          unfold GoodKey
          refine ⟨reflPt _ e_pair.p1, get_reflected_point_eq_some _ _ hnd, e_pair.p2, hp2, ?_⟩
          rw [reflPt_equidistant_fst e_pair.p1 e_pair.p2 hnd]
          exact pointEq_refl _ _ h2eps
        · rw [List.mem_singleton.mp hkv]
          refine ⟨hp2, ?_⟩
          unfold GoodKey
          refine ⟨reflPt _ e_pair.p2, get_reflected_point_eq_some _ _ hnd, e_pair.p1, hp1, ?_⟩
          rw [reflPt_equidistant_snd e_pair.p1 e_pair.p2 hnd]
          exact pointEq_refl _ _ h2eps
      have hscan := scanPoints_invariant eps pts (get_equidistant_line e_pair.p1 e_pair.p2)
        hde heps hnd pts _ st (fun pt hpt => hpt) (by exact hseed) heq
      have hgoodline : st.valid = true →
          ∀ p ∈ pts, GoodKey eps pts (get_equidistant_line e_pair.p1 e_pair.p2) p := by
        intro hv p hp
        obtain ⟨kv, hkv, hkeq⟩ := hscan.2.2.2 hv p hp
        obtain ⟨hkpts, hkgood⟩ := hscan.1 kv hkv
        exact mem_pointEq_eq eps pts hdist kv.1 p hkpts hp hkeq ▸ hkgood
      have hgens2 : ∀ g ∈ st.gens, g.p1 ∈ pts ∧ g.p2 ∈ pts ∧ ¬ pointEq eps g.p1 g.p2 :=
        fun g hg => hgens g (List.mem_cons_of_mem _
          ((scanPoints_gens eps pts (get_equidistant_line e_pair.p1 e_pair.p2) hde pts _ st heq).1 g hg))
      refine symLoop_lines eps pts hde heps hdist fuel st.gens _ _ linesF tlpF hgens2 ?_ h
      split_ifs with hv hcont
      · exact hlines
      · intro l hl
        rcases List.mem_append.mp hl with hl | hl
        · exact hlines l hl
        · rw [List.mem_singleton.mp hl]
          exact hgoodline hv
      · exact hlines

/-- The through-line passes exactly through its two defining points, hence
they lie on it within every positive tolerance. -/
theorem through_line_on_endpoints (eps : ℚ) (heps : 0 < eps) (p1 p2 : Point) :
    (get_through_line p1 p2).is_point_on_line eps p1 ∧
    (get_through_line p1 p2).is_point_on_line eps p2 := by
  have e1 : (get_through_line p1 p2).a * p1.x + (get_through_line p1 p2).b * p1.y +
      (get_through_line p1 p2).c = 0 := by
    unfold get_through_line
    ring
  have e2 : (get_through_line p1 p2).a * p2.x + (get_through_line p1 p2).b * p2.y +
      (get_through_line p1 p2).c = 0 := by
    unfold get_through_line
    ring
  constructor
  · unfold Line.is_point_on_line floats_equal_toler
    rw [e1]
    simpa using heps
  · unfold Line.is_point_on_line floats_equal_toler
    rw [e2]
    simpa using heps

/-- Claim C1, amended: with the claimed tolerance `eps` on the reflection
replaced by `2 * eps`.  For every positive tolerance, every finite pairwise
tolerance-distinct input of at least two points and either policy flag, every
line of the returned set satisfies: each input point either lies on the line
within tolerance, or its reflection across the line succeeds and is within
`2 * eps` per coordinate of some input point. -/
theorem C1_soundness_within_doubled_tolerance (eps : ℚ) (pts : List Point)
    (flag : Option Bool) (lines : List Line) (heps : 0 < eps)
    (hdist : pts.Pairwise (fun a b => ¬ pointEq eps a b))
    (hlen : 2 ≤ pts.length)
    (hrun : get_lines_of_sym eps pts flag = some lines) :
    ∀ l ∈ lines, ∀ p ∈ pts,
      l.is_point_on_line eps p ∨
      ∃ r, l.get_reflected_point p = some r ∧ ∃ q ∈ pts, pointEq (2 * eps) r q := by
  simp only [get_lines_of_sym] at hrun
  rw [if_neg (by omega)] at hrun
  split at hrun
  · exact absurd hrun (by simp)
  · next lines0 tlp0 heq =>
    have hlines0 := symLoop_lines eps pts (flag.getD true) heps hdist
      (buildGens eps pts).length (buildGens eps pts) [] true lines0 tlp0
      (buildGens_prop eps pts hdist) (by simp) heq
    split at hrun
    · split at hrun
      · next plist1 plist2 restPts =>
        split at hrun
        · next hcond =>
          rw [Option.some.injEq] at hrun
          subst hrun
          intro l hl p hp
          rcases List.mem_append.mp hl with hl | hl
          · exact Or.inr (hlines0 l hl p hp)
          · rw [List.mem_singleton.mp hl]
            left
            rcases List.mem_cons.mp hp with rfl | hp2
            · exact (through_line_on_endpoints eps heps p plist2).1
            · rcases List.mem_cons.mp hp2 with rfl | hp3
              · exact (through_line_on_endpoints eps heps plist1 p).2
              · exact hcond.1 p hp3
        · rw [Option.some.injEq] at hrun
          subst hrun
          intro l hl p hp
          exact Or.inr (hlines0 l hl p hp)
      · rw [Option.some.injEq] at hrun
        subst hrun
        intro l hl p hp
        exact Or.inr (hlines0 l hl p hp)
    · rw [Option.some.injEq] at hrun
      subst hrun
      intro l hl p hp
      exact Or.inr (hlines0 l hl p hp)

/-- Claim C9, witness at the two-point input of spec Scenario B. -/
theorem C9_witness : (get_lines_of_sym EPSILON [⟨0, 0⟩, ⟨2, 0⟩] none).isSome :=
  C9_solver_never_hits_degenerate_reflection EPSILON [⟨0, 0⟩, ⟨2, 0⟩] none
    (by norm_num [EPSILON])
    (by norm_num [List.pairwise_cons, pointEq, floats_equal_toler, EPSILON, abs_lt])

/-- Claim C1, witness of the amended theorem at the two-point input of spec
Scenario B, specialised to the returned bisector and the input point
`(0,0)`. -/
theorem C1_witness :
    Line.is_point_on_line EPSILON ⟨2, 0, -2⟩ ⟨0, 0⟩ ∨
    ∃ r, Line.get_reflected_point ⟨2, 0, -2⟩ ⟨0, 0⟩ = some r ∧
      ∃ q ∈ ([⟨0, 0⟩, ⟨2, 0⟩] : List Point), pointEq (2 * EPSILON) r q :=
  C1_soundness_within_doubled_tolerance EPSILON [⟨0, 0⟩, ⟨2, 0⟩] none [⟨2, 0, -2⟩]
    (by norm_num [EPSILON])
    (by norm_num [List.pairwise_cons, pointEq, floats_equal_toler, EPSILON, abs_lt])
    (by simp)
    (by norm_num [get_lines_of_sym, buildGens, upairs, UnorderedPointPair.new, pointLe_iff,
      pairEq, pointEq, floats_equal_toler, symLoop, scanPoints,
      get_equidistant_line, Line.get_reflected_point, hmContains, hmInsert, findPt,
      removePair, lineEq_iff, get_through_line, Line.is_point_on_line, EPSILON, abs_lt])
    ⟨2, 0, -2⟩ (by simp) ⟨0, 0⟩ (by simp)
